import Mathlib

/-!
Shallow embedding of the SpiBeam command path (repository `bona405/test2`):
the wire protocol (`SpiwriteProtocol.h/.cpp`), the frame handler
(`SpiwriteFrameHandler.h`), the command engine and memory writer
(`SpiwriteCommand.cpp`).

Machine integers are modelled as `Nat` with explicit reductions:
a C++ `uint8_t` read is `% 256`, a `uint32_t` shift-accumulate is `% 2^32`.
Host byte order is little-endian, as on the program's ARM (Zynq `/dev/mem`
register map at `0x43C00000`) and x86 targets: `ntohl`/`htonl` swap bytes.
Hardware register traffic is recorded as an explicit event trace.
-/

namespace SpiBeam

/-- A byte read from a C++ `std::vector<uint8_t>` / `uint8_t*` at index `i`:
the element reduced mod 256 (the `uint8_t` storage type), with out-of-range
reads totalised to 0. -/
def byteAt (l : List ℕ) (i : ℕ) : ℕ := l.getD i 0 % 256

/-- One observable hardware access or instrumentation point of the command
engine.  `write`/`read` are the `wr.writeMemory` / `wr.readMemory` register
accesses; `valueDone b q` records the length `q` of bus `b`'s byte queue
right after the drain loop of one 2-byte value; `busClosed b q` records the
length of bus `b`'s queue at the moment its bus-close sequence is issued. -/
inductive HwEvent where
  | write (addr val : ℕ)
  | read (addr : ℕ)
  | valueDone (bus qlen : ℕ)
  | busClosed (bus qlen : ℕ)
deriving DecidableEq, Repr

/-- The per-bus FIFO register block base: `0x43C40000 + bus_id * 0x10000`
(`SpiwriteCommand.cpp`, `parse_binary_commands`). -/
def fifoBase (b : ℕ) : ℕ := 0x43C40000 + b * 0x10000

/-- Which of the FIFO bus register blocks an event touches
(relative to the bus-0 base `0x43C40000`). -/
def HwEvent.busOf : HwEvent → ℕ
  | .write a _ => (a - 0x43C40000) / 0x10000
  | .read a => (a - 0x43C40000) / 0x10000
  | .valueDone b _ => b
  | .busClosed b _ => b

/-! ## MemoryWriter (`SpiwriteCommand.cpp` lines 40-76, 157-239) -/

/-- The Linux page size used by `sysconf(_SC_PAGESIZE)` on the target. -/
def pageSize : ℕ := 4096

/-- State of a `MemoryWriter` (`SpiwriteCommand.h`): `mapReady` stands for
`mem_fd != -1 && mapped_base != nullptr`; the mapped physical window is
`[mapped_address, mapped_address + mapped_size)`. -/
structure MemoryWriter where
  mapReady : Bool
  mapped_address : ℕ
  mapped_size : ℕ
deriving DecidableEq, Repr

/-- Whether `open("/dev/mem")` and `mmap` succeed in the one-shot direct
path; environmental, so a parameter of the model. -/
structure DirectEnv where
  openOk : Bool
  mmapOk : Bool
deriving DecidableEq, Repr

/-- `writeMemoryDirect` (`SpiwriteCommand.cpp` lines 40-76): maps the single
page containing `target_address`, writes, unmaps.  Returns the C++ `bool`
result together with the list of memory accesses actually performed. -/
def writeMemoryDirect (env : DirectEnv) (target_address value : ℕ) :
    Bool × List HwEvent :=
  let page_offset := target_address % pageSize
  if pageSize < page_offset + 4 then (false, [])
  else if env.openOk = false then (false, [])
  else if env.mmapOk = false then (false, [])
  else (true, [HwEvent.write target_address value])

/-- `MemoryWriter::writeMemory` (`SpiwriteCommand.cpp` lines 207-239): when
uninitialised it falls back to `writeMemoryDirect`; otherwise it checks
4-byte alignment and that `[addr, addr+4)` lies inside the mapped window,
returning `false` with no access on a violation.  The range check compares
`target_address + sizeof(uint32_t)` against `mapped_address + mapped_size`
in `uintptr_t`, which on the 32-bit Zynq target wraps mod `2^32`: for
`target_address ≥ 2^32 - 4` the left sum wraps to a small value and the
check is bypassed. -/
def MemoryWriter.writeMemory (w : MemoryWriter) (env : DirectEnv)
    (target_address value : ℕ) : Bool × List HwEvent :=
  if w.mapReady = false then writeMemoryDirect env target_address value
  else if target_address % 4 ≠ 0 then (false, [])
  else if target_address < w.mapped_address ∨
      (w.mapped_address + w.mapped_size) % 4294967296 <
        (target_address + 4) % 4294967296 then (false, [])
  else (true, [HwEvent.write target_address value])

/-! ## Wire protocol (`SpiwriteProtocol.h`, `SpiwriteProtocol.cpp`) -/

/-- Protocol constants (`SpiwriteProtocol.h` enum). -/
def MSG_STRAT_CODE : ℕ := 0x1077E110

/-- `MSG_ACK` message type. -/
def MSG_ACK : ℕ := 0x00000001

/-- `MSG_LINES` message type. -/
def MSG_LINES : ℕ := 0x00000002

/-- The packed `Header` struct: four `uint32_t` fields, 16 bytes. -/
structure Header where
  start : ℕ
  sequence : ℕ
  message_type : ℕ
  message_length : ℕ
deriving DecidableEq, Repr

/-- `sizeof(Header)` = 16 bytes. -/
def headerSize : ℕ := 16

/-- Big-endian interpretation of four bytes (what a struct load followed by
`ntohl` computes on any host). -/
def be32 (a b c d : ℕ) : ℕ := ((a * 256 + b) * 256 + c) * 256 + d

/-- The four bytes of a `uint32_t` as laid out in memory on the
little-endian host. -/
def le32 (v : ℕ) : List ℕ :=
  [v % 256, v / 256 % 256, v / 65536 % 256, v / 16777216 % 256]

/-- `htonl` on the little-endian host: swap the four bytes of a 32-bit
value. -/
def bswap32 (v : ℕ) : ℕ :=
  (v % 256) * 16777216 + (v / 256 % 256) * 65536 +
    (v / 65536 % 256) * 256 + v / 16777216 % 256

/-- `Header::FromNetwork` (`SpiwriteProtocol.h` lines 29-38): load the raw
16 bytes as four fields and convert each with `ntohl`; the net effect is
the big-endian interpretation of each 4-byte group. -/
def Header.fromNetwork (raw : List ℕ) : Header :=
  { start := be32 (byteAt raw 0) (byteAt raw 1) (byteAt raw 2) (byteAt raw 3)
    sequence := be32 (byteAt raw 4) (byteAt raw 5) (byteAt raw 6) (byteAt raw 7)
    message_type :=
      be32 (byteAt raw 8) (byteAt raw 9) (byteAt raw 10) (byteAt raw 11)
    message_length :=
      be32 (byteAt raw 12) (byteAt raw 13) (byteAt raw 14) (byteAt raw 15) }

/-- `Header::ToNetwork`: `htonl` on each field. -/
def Header.toNetwork (h : Header) : Header :=
  { start := bswap32 h.start
    sequence := bswap32 h.sequence
    message_type := bswap32 h.message_type
    message_length := bswap32 h.message_length }

/-- The in-memory bytes of a `Header` value on the little-endian host
(what `memcpy` from the struct produces). -/
def Header.rawBytes (h : Header) : List ℕ :=
  le32 h.start ++ le32 h.sequence ++ le32 h.message_type ++
    le32 h.message_length

/-- A `Frame`: header plus payload bytes (`MessageRaw::data`). -/
structure Frame where
  head : Header
  data : List ℕ
deriving DecidableEq, Repr

/-- `Frame::DeepCopy` (`SpiwriteProtocol.h` lines 86-92): `memcpy` of the
header struct as stored (host order on this little-endian target) followed
by the payload bytes. -/
def Frame.deepCopy (f : Frame) : List ℕ := f.head.rawBytes ++ f.data

/-- The two `std::logic_error` outcomes of `DecodeFrame`
(`SpiwriteProtocol.cpp` lines 9-29): the buffer is shorter than the header
("Frame is not ready yet!"), or the declared `message_length` exceeds the
bytes present ("%d recevied but %d needed", carrying `len` and
`sizeof(head) + message_length`). -/
inductive DecodeErr where
  | notReady
  | needMore (received needed : ℕ)
deriving DecidableEq, Repr

/-- `DecodeFrame(frame, len)` (`SpiwriteProtocol.cpp` lines 9-29), with the
buffer's accessible bytes as the list (so `len = frame.length`).  An
exception is an `Except.error`; no bytes are consumed on error.  The
length check computes `sizeof(head) + head.message_length` in `size_t`,
which is 32 bits on the Zynq target and wraps for `message_length ≥
0xFFFFFFF0`; when the wrapped sum bypasses the check, the C++ proceeds
into an out-of-bounds payload copy of `message_length` bytes (undefined
behaviour), totalised here as taking the bytes that are present. -/
def decodeFrame (frame : List ℕ) : Except DecodeErr Frame :=
  if frame.length < headerSize then .error .notReady
  else
    let head := Header.fromNetwork frame
    if frame.length < (headerSize + head.message_length) % 4294967296 then
      .error (.needMore frame.length
        ((headerSize + head.message_length) % 4294967296))
    else .ok ⟨head, (frame.drop headerSize).take head.message_length⟩

/-! ## FrameHandler::OnReceive (`SpiwriteFrameHandler.h` lines 14-31, 51-56) -/

/-- What happened to one decoded frame inside `OnReceive`: whether the
`OnPreMessage` hook ran, whether the default hook sent an ACK, and whether
the `MSG_LINES` handler was dispatched.  A frame whose `start` field does
not match the magic is recorded with all three flags false (the loop
`continue`s past it). -/
structure FrameDisposition where
  head : Header
  payload : List ℕ
  preInvoked : Bool
  ackSent : Bool
  dispatched : Bool
deriving DecidableEq, Repr

/-- `FrameHandler::OnReceive`: repeatedly decode a frame from the front,
advance by `decoded.Length() = sizeof(head) + message.data.size()`, skip
frames with a wrong `start`, otherwise run `OnPreMessage` (the default
sends an ACK unless the frame itself is an ACK) and dispatch `MSG_LINES`.
A `DecodeFrame` exception aborts the loop and is reported alongside the
dispositions produced so far. -/
def onReceive : List ℕ → List FrameDisposition × Option DecodeErr
  | [] => ([], none)
  | p0 :: ptail =>
    match decodeFrame (p0 :: ptail) with
    | .error e => ([], some e)
    | .ok f =>
      let rest := (p0 :: ptail).drop (headerSize + f.data.length)
      let d : FrameDisposition :=
        if f.head.start ≠ MSG_STRAT_CODE then
          ⟨f.head, f.data, false, false, false⟩
        else
          { head := f.head, payload := f.data, preInvoked := true,
            ackSent := if f.head.message_type = MSG_ACK then false else true,
            dispatched :=
              if f.head.message_type = MSG_LINES then true else false }
      let out := onReceive rest
      (d :: out.1, out.2)
termination_by l => l.length
decreasing_by
  simp only [headerSize, List.length_drop, List.length_cons]
  omega

/-! ## parse_binary_commands (`SpiwriteCommand.cpp` lines 263-412) -/

/-- The fixed register-address table `{0x27, 0x3F, 0x47, 0x5F}`. -/
def register_addrs : List ℕ := [0x27, 0x3F, 0x47, 0x5F]

/-- The cursor state of the binary command state machine: current bus id,
chip (IC) address, register-table index, and the per-bus byte queues
(the global `byte_queues` map; absent keys are empty queues). -/
structure PBState where
  busId : ℕ
  icAddr : ℕ
  regIdx : ℕ
  queues : ℕ → List ℕ

/-- The drain loop `while (q.size() >= 4)`: pop the front four bytes,
shift-accumulate them into a `uint32_t` (`data <<= 8; data |= q.front()`),
emit the word, repeat until fewer than four bytes remain.  Returns the
emitted words in order and the remaining queue. -/
def drainQueue : List ℕ → List ℕ × List ℕ
  | a :: b :: c :: d :: r =>
    let w := [a, b, c, d].foldl (fun acc x => (acc * 256 + x) % 4294967296) 0
    let out := drainQueue r
    (w :: out.1, out.2)
  | q => ([], q)

/-- One iteration of the `parse_binary_commands` loop body for the 2-byte
value `(b0 << 8) | b1`: append the 5-byte device command to the current
bus's queue, drain it to the FIFO data register `base + 0x10`, then advance
the register/IC/bus cursors, issuing the bus-close sequence (and, when not
past bus 7, the next bus-open write) at a bus boundary.  The `Bool` result
is the `break` flag (`bus_id > 0x07`). -/
def pbStep (s : PBState) (b0 b1 : ℕ) : List HwEvent × PBState × Bool :=
  let reg := register_addrs.getD s.regIdx 0
  let value := (b0 % 256) * 256 + b1 % 256
  let base := fifoBase s.busId
  let q := s.queues s.busId ++
    [0x28, s.icAddr % 256, reg, value / 256, value % 256]
  let dq := drainQueue q
  let evs0 := dq.1.map (fun w => HwEvent.write (base + 0x10) w) ++
    [HwEvent.valueDone s.busId dq.2.length]
  let queues' := Function.update s.queues s.busId dq.2
  if 4 ≤ s.regIdx + 1 then
    if 0x1F < s.icAddr + 1 then
      let closeEvs := [HwEvent.write (base + 0x14) 0x280,
        HwEvent.read base, HwEvent.write base 0xFFFFFFFF,
        HwEvent.read (base + 0xC), HwEvent.busClosed s.busId dq.2.length]
      if 7 < s.busId + 1 then
        (evs0 ++ closeEvs, ⟨s.busId + 1, 0, 0, queues'⟩, true)
      else
        (evs0 ++ closeEvs ++
            [HwEvent.write (fifoBase (s.busId + 1) + 0x2C) 0x2],
          ⟨s.busId + 1, 0, 0, queues'⟩, false)
    else (evs0, ⟨s.busId, s.icAddr + 1, 0, queues'⟩, false)
  else (evs0, ⟨s.busId, s.icAddr, s.regIdx + 1, queues'⟩, false)

/-- The `while (offset + 1 <= binary_data.size())` loop over the remaining
bytes (the suffix of `binary_data` from the current offset): each pass
consumes the 2-byte big-endian value at the front (the second byte read is
one past the end when exactly one byte remains, which is out of bounds in
the C++ and totalised to 0 here) and runs `pbStep`; `break` stops the loop
with input left over. -/
def pbLoop : List ℕ → PBState → List HwEvent × PBState
  | [], s => ([], s)
  | [b0], s =>
    let step := pbStep s b0 0
    (step.1, step.2.1)
  | b0 :: b1 :: r, s =>
    let step := pbStep s b0 b1
    if step.2.2 then (step.1, step.2.1)
    else
      let out := pbLoop r step.2.1
      (step.1 ++ out.1, out.2)

/-- Outcome of one command: the `Result` struct (`SpiwriteCommand.h`
lines 24-28): a message plus readback words. -/
structure CmdResult where
  message : String
  responses : List ℕ
deriving DecidableEq, Repr

/-- `SpiwriteCommand::parse_binary_commands`: skip the first 3 bytes
(`offset = 3`), run the bus state machine from bus 0 / chip 0 / register
index 0 on the global byte queues `queues₀`, and return `Result{"001"}`
together with the register-access trace and the final cursor state. -/
def parse_binary_commands (queues₀ : ℕ → List ℕ) (binary_data : List ℕ) :
    CmdResult × List HwEvent × PBState :=
  let out := pbLoop (binary_data.drop 3) ⟨0, 0, 0, queues₀⟩
  (⟨"001", []⟩, out.1, out.2)

/-! ## Text path and `Execute` (`SpiwriteCommand.cpp` lines 934-1045,
1187-1332) -/

/-- The tokenizer inside `Execute`: split on `' '` and `'&'`, collapsing
consecutive delimiters and dropping empty tokens.  `acc` is the current
token's characters in reverse order. -/
def tokenizeAux (acc : List Char) : List Char → List (List Char)
  | [] => if acc = [] then [] else [acc.reverse]
  | c :: cs =>
    if c = ' ' ∨ c = '&' then
      if acc = [] then tokenizeAux [] cs else acc.reverse :: tokenizeAux [] cs
    else tokenizeAux (c :: acc) cs

/-- Delimiter-splitting of a raw command string on space and `&`. -/
def tokenize (raw : List Char) : List (List Char) := tokenizeAux [] raw

/-- The register-access trace of the `done` branch of
`parse_text_commands`: global length, execute and send-mask writes, the
busy-wait polls of the send-status register (`pollCount` busy reads before
the final zero read; the loop has no timeout, so the model takes the
observed number of polls as a parameter), then the eight per-bus
remaining-FIFO-size reads. -/
def doneTrace (pollCount : ℕ) : List HwEvent :=
  [HwEvent.write 0x43C00018 0x5, HwEvent.write 0x43C0001C 0x1,
    HwEvent.write 0x43C00014 0xFF] ++
  List.replicate pollCount (HwEvent.read 0x43C00014) ++
  [HwEvent.read 0x43C00014] ++
  [HwEvent.read 0x43C4000C, HwEvent.read 0x43C5000C,
    HwEvent.read 0x43C6000C, HwEvent.read 0x43C7000C,
    HwEvent.read 0x43C8000C, HwEvent.read 0x43C9000C,
    HwEvent.read 0x43CA000C, HwEvent.read 0x43CB000C]

/-- `SpiwriteCommand::parse_text_commands`: a two-entry command table on
the first token (`tokens[0]`; reading it from an empty token vector is out
of bounds in the C++ and totalised to the empty token here).  `start`
writes `0x2` to bus 0's control register `0x43C4002C`; `done` runs the
trigger-send sequence; anything else answers `"what?"` with no hardware
access. -/
def parse_text_commands (pollCount : ℕ) (tokens : List (List Char)) :
    CmdResult × List HwEvent :=
  let cmd := tokens.headD []
  if cmd = "start".data then
    (⟨"stat init completed !!!", []⟩, [HwEvent.write 0x43C4002C 0x2])
  else if cmd = "done".data then (⟨"done complete", []⟩, doneTrace pollCount)
  else (⟨"what?", []⟩, [])

/-- A character of the raw command read as a `uint8_t`. -/
def charByte (c : Char) : ℕ := c.toNat % 256

/-- `SpiwriteCommand::Execute` (`SpiwriteCommand.cpp` lines 1187-1332).
`raw` is the command string; `queues₀` the global per-bus byte queues;
`dec` abstracts `decompress_zlib_verbose` (zlib inflate is external), as
the exception message or the decompressed bytes; `pollCount` the number of
busy polls in the `done` branch.  Strings prefixed `BINARY:` take the
binary path: detect a zlib container from the first two payload bytes,
validate the zlib header, decompress if needed, and run
`parse_binary_commands`; everything else is tokenized and dispatched to
`parse_text_commands`. -/
def Execute (queues₀ : ℕ → List ℕ)
    (dec : List ℕ → Except String (List ℕ)) (pollCount : ℕ)
    (raw : List Char) : CmdResult × List HwEvent :=
  if raw.take 7 = "BINARY:".data then
    let bytes := (raw.drop 7).map charByte
    let first_byte := byteAt bytes 0
    let second_byte := byteAt bytes 1
    if bytes = [] then (⟨"No binary data found", []⟩, [])
    else if first_byte = 0x78 ∧ Nat.land second_byte 0x20 = 0 then
      if bytes.length < 2 then (⟨"Invalid zlib data: too short", []⟩, [])
      else if Nat.land first_byte 0xF ≠ 8 then
        (⟨"Invalid zlib compression method", []⟩, [])
      else if (first_byte * 256 + second_byte) % 31 ≠ 0 then
        (⟨"Invalid zlib header checksum", []⟩, [])
      else
        match dec bytes with
        | .error e =>
          (⟨"Decompression error: " ++ e, []⟩, [])
        | .ok decompressed =>
          let out := parse_binary_commands queues₀ decompressed
          (out.1, out.2.1)
    else
      let out := parse_binary_commands queues₀ bytes
      (out.1, out.2.1)
  else parse_text_commands pollCount (tokenize raw)

/-- The readback-line formatting loop of `SpitermRunner::Impl::OnMessage`
(`SpitermRunner.cpp` lines 42-50): one `"%04x[%d]\r\n"` line per word in
`Result.responses`, with `fmt` abstracting the `SpiReadback` rendering of
one word. -/
def readbackLines (fmt : ℕ → String) (responses : List ℕ) : List String :=
  responses.map fmt

/-! ## Byte-level helper lemmas -/

theorem byteAt_lt (l : List ℕ) (i : ℕ) : byteAt l i < 256 :=
  Nat.mod_lt _ (by omega)

theorem le32_bswap32_be32 (a b c d : ℕ) (ha : a < 256) (hb : b < 256)
    (hc : c < 256) (hd : d < 256) :
    le32 (bswap32 (be32 a b c d)) = [a, b, c, d] := by
  have hv : bswap32 (be32 a b c d) = ((d * 256 + c) * 256 + b) * 256 + a := by
    have h1 : (((a * 256 + b) * 256 + c) * 256 + d) % 256 = d := by omega
    have h2 : (((a * 256 + b) * 256 + c) * 256 + d) / 256 % 256 = c := by
      omega
    have h3 : (((a * 256 + b) * 256 + c) * 256 + d) / 65536 % 256 = b := by
      omega
    have h4 : (((a * 256 + b) * 256 + c) * 256 + d) / 16777216 % 256 = a := by
      omega
    simp only [bswap32, be32, h1, h2, h3, h4]
    ring
  rw [hv]
  simp only [le32, List.cons.injEq, and_true]
  refine ⟨?_, ?_, ?_, ?_⟩ <;> omega

/-- On the little-endian host, re-encoding a decoded header with `ToNetwork`
and `memcpy` yields exactly the 16 wire bytes it was decoded from. -/
theorem rawBytes_toNetwork_fromNetwork (raw : List ℕ) :
    ((Header.fromNetwork raw).toNetwork).rawBytes =
      [byteAt raw 0, byteAt raw 1, byteAt raw 2, byteAt raw 3,
       byteAt raw 4, byteAt raw 5, byteAt raw 6, byteAt raw 7,
       byteAt raw 8, byteAt raw 9, byteAt raw 10, byteAt raw 11,
       byteAt raw 12, byteAt raw 13, byteAt raw 14, byteAt raw 15] := by
  simp only [Header.fromNetwork, Header.toNetwork, Header.rawBytes]
  rw [le32_bswap32_be32 _ _ _ _ (byteAt_lt raw 0) (byteAt_lt raw 1)
      (byteAt_lt raw 2) (byteAt_lt raw 3),
    le32_bswap32_be32 _ _ _ _ (byteAt_lt raw 4) (byteAt_lt raw 5)
      (byteAt_lt raw 6) (byteAt_lt raw 7),
    le32_bswap32_be32 _ _ _ _ (byteAt_lt raw 8) (byteAt_lt raw 9)
      (byteAt_lt raw 10) (byteAt_lt raw 11),
    le32_bswap32_be32 _ _ _ _ (byteAt_lt raw 12) (byteAt_lt raw 13)
      (byteAt_lt raw 14) (byteAt_lt raw 15)]
  rfl

/-- The first 16 bytes of an all-bytes buffer, listed via `byteAt`. -/
theorem take_sixteen_eq_byteAt (buf : List ℕ) (hlen : 16 ≤ buf.length)
    (hbytes : ∀ x ∈ buf, x < 256) :
    buf.take 16 =
      [byteAt buf 0, byteAt buf 1, byteAt buf 2, byteAt buf 3,
       byteAt buf 4, byteAt buf 5, byteAt buf 6, byteAt buf 7,
       byteAt buf 8, byteAt buf 9, byteAt buf 10, byteAt buf 11,
       byteAt buf 12, byteAt buf 13, byteAt buf 14, byteAt buf 15] := by
  have hb : ∀ (i : ℕ) (h : i < buf.length), byteAt buf i = buf[i] := by
    intro i h
    unfold byteAt
    rw [List.getD_eq_getElem _ _ h]
    exact Nat.mod_eq_of_lt (hbytes _ (List.getElem_mem h))
  apply List.ext_getElem
  · simp
    omega
  · intro i h1 h2
    have hi : i < 16 := by simpa using h2
    rw [List.getElem_take]
    interval_cases i <;>
      simp only [List.getElem_cons_zero, List.getElem_cons_succ] <;>
      rw [hb _ (by omega)]

/-! ## Claim C2 -/

/-- C2 counterexample: `DecodeFrame` accepts this 16-byte frame (header
with `start = 1`, empty payload), but `Frame::DeepCopy` of the resulting
frame re-serialises the header in host (little-endian) order and does not
reproduce the original network-order byte sequence. -/
theorem frame_deepCopy_not_roundtrip :
    decodeFrame [0, 0, 0, 1, 0, 0, 0, 0, 0, 0, 0, 0, 0, 0, 0, 0] =
      .ok ⟨⟨1, 0, 0, 0⟩, []⟩ ∧
    Frame.deepCopy ⟨⟨1, 0, 0, 0⟩, []⟩ =
      [1, 0, 0, 0, 0, 0, 0, 0, 0, 0, 0, 0, 0, 0, 0, 0] ∧
    Frame.deepCopy ⟨⟨1, 0, 0, 0⟩, []⟩ ≠
      [0, 0, 0, 1, 0, 0, 0, 0, 0, 0, 0, 0, 0, 0, 0, 0] :=
  ⟨rfl, by decide, by decide⟩

/-- C2 amended: for every all-bytes buffer that `DecodeFrame` accepts,
serialising the resulting Frame after converting its header back to
network order (`Header::ToNetwork`, as every send site does) reproduces
exactly the consumed prefix of the original byte sequence — the first
`sizeof(Header) + message_length` bytes.  `DeepCopy` alone re-serialises
the decoded (host-order) header and does not reproduce the original bytes
on the little-endian target. -/
theorem decodeFrame_toNetwork_deepCopy_roundtrip (buf : List ℕ) (f : Frame)
    (hbytes : ∀ x ∈ buf, x < 256)
    (hdec : decodeFrame buf = .ok f) :
    Frame.deepCopy ⟨f.head.toNetwork, f.data⟩ =
      buf.take (16 + f.head.message_length) := by
  simp only [decodeFrame, headerSize] at hdec
  split at hdec
  · exact absurd hdec (by simp)
  · split at hdec
    · exact absurd hdec (by simp)
    · rename_i h16 hml
      simp only [Except.ok.injEq] at hdec
      subst hdec
      simp only [Frame.deepCopy]
      rw [List.take_add]
      rw [rawBytes_toNetwork_fromNetwork,
        take_sixteen_eq_byteAt buf (by omega) hbytes]

/-- C2 amended witness: a concrete 19-byte frame (3-byte payload) whose
`ToNetwork`-then-`DeepCopy` serialisation reproduces it. -/
theorem decodeFrame_toNetwork_deepCopy_roundtrip_witness :
    Frame.deepCopy
        ⟨(Header.mk 0x1077E110 5 2 3).toNetwork, [65, 66, 67]⟩ =
      ([0x10, 0x77, 0xE1, 0x10, 0, 0, 0, 5, 0, 0, 0, 2, 0, 0, 0, 3,
        65, 66, 67] : List ℕ).take
        (16 + (Header.mk 0x1077E110 5 2 3).message_length) :=
  decodeFrame_toNetwork_deepCopy_roundtrip
    [0x10, 0x77, 0xE1, 0x10, 0, 0, 0, 5, 0, 0, 0, 2, 0, 0, 0, 3, 65, 66, 67]
    ⟨⟨0x1077E110, 5, 2, 3⟩, [65, 66, 67]⟩ (by decide) rfl

/-! ## Claim C6 -/

/-- C6 counterexample: a 16-byte buffer whose header declares
`message_length = 0xFFFFFFF8`.  The declared length far exceeds the 0
bytes present after the header, but the 32-bit `size_t` sum
`sizeof(head) + message_length` wraps to 8, the check `8 > 16` fails, and
`DecodeFrame` does not fail with the malformed-frame error — the C++
continues into the payload copy instead. -/
theorem decodeFrame_length_check_wraps :
    (Header.fromNetwork
        [0, 0, 0, 0, 0, 0, 0, 0, 0, 0, 0, 0, 0xFF, 0xFF, 0xFF, 0xF8]
      ).message_length = 0xFFFFFFF8 ∧
    ([0, 0, 0, 0, 0, 0, 0, 0, 0, 0, 0, 0, 0xFF, 0xFF, 0xFF, 0xF8] :
        List ℕ).length <
      16 + (Header.fromNetwork
        [0, 0, 0, 0, 0, 0, 0, 0, 0, 0, 0, 0, 0xFF, 0xFF, 0xFF, 0xF8]
      ).message_length ∧
    decodeFrame [0, 0, 0, 0, 0, 0, 0, 0, 0, 0, 0, 0, 0xFF, 0xFF, 0xFF, 0xF8] =
      .ok ⟨Header.fromNetwork
        [0, 0, 0, 0, 0, 0, 0, 0, 0, 0, 0, 0, 0xFF, 0xFF, 0xFF, 0xF8], []⟩ :=
  ⟨by decide, by decide, rfl⟩

/-- C6 amended.  For every buffer and length: a buffer shorter than the
16-byte header makes `DecodeFrame` fail with the not-ready error (and,
being an exception, it consumes zero bytes and produces no frame); a
declared `message_length` exceeding the bytes present after the header
makes it fail with the malformed-frame error, provided the 32-bit sum
`sizeof(Header) + message_length` does not wrap (`message_length <
0xFFFFFFF0` — for larger values the wrapped sum bypasses the check);
when `sizeof(Header) + message_length` bytes are present it returns a
`Frame` whose payload is an exact copy (of exactly `message_length`
bytes) of the bytes following the header. -/
theorem decodeFrame_cases (buf : List ℕ) :
    (buf.length < 16 → decodeFrame buf = .error .notReady) ∧
    (16 ≤ buf.length →
      buf.length < 16 + (Header.fromNetwork buf).message_length →
      16 + (Header.fromNetwork buf).message_length < 4294967296 →
      decodeFrame buf = .error
        (.needMore buf.length (16 + (Header.fromNetwork buf).message_length))) ∧
    (16 + (Header.fromNetwork buf).message_length ≤ buf.length →
      decodeFrame buf = .ok ⟨Header.fromNetwork buf,
        (buf.drop 16).take (Header.fromNetwork buf).message_length⟩ ∧
      ((buf.drop 16).take (Header.fromNetwork buf).message_length).length =
        (Header.fromNetwork buf).message_length) := by
  refine ⟨fun h1 => ?_, fun h2 h3 hw => ?_, fun h4 => ⟨?_, ?_⟩⟩
  · simp only [decodeFrame, headerSize]
    rw [if_pos h1]
  · simp only [decodeFrame, headerSize]
    rw [if_neg (by omega), if_pos (by rw [Nat.mod_eq_of_lt hw]; omega),
      Nat.mod_eq_of_lt hw]
  · simp only [decodeFrame, headerSize]
    rw [if_neg (by omega), if_neg (by
      intro hcon
      have hle : (16 + (Header.fromNetwork buf).message_length) %
          4294967296 ≤ 16 + (Header.fromNetwork buf).message_length :=
        Nat.mod_le _ _
      omega)]
  · simp only [List.length_take, List.length_drop]
    omega

/-- C6 witness: a 3-byte buffer is not ready; a 19-byte buffer whose header
declares a 21-byte total is rejected as malformed; a 19-byte buffer whose
header declares a 3-byte payload decodes to that payload. -/
theorem decodeFrame_cases_witness :
    decodeFrame [1, 2, 3] = .error .notReady ∧
    decodeFrame [0x10, 0x77, 0xE1, 0x10, 0, 0, 0, 5, 0, 0, 0, 2, 0, 0, 0, 5,
        65, 66, 67] =
      .error (.needMore 19 21) ∧
    decodeFrame [0x10, 0x77, 0xE1, 0x10, 0, 0, 0, 5, 0, 0, 0, 2, 0, 0, 0, 3,
        65, 66, 67] =
      .ok ⟨Header.fromNetwork [0x10, 0x77, 0xE1, 0x10, 0, 0, 0, 5, 0, 0, 0, 2,
          0, 0, 0, 3, 65, 66, 67],
        (([0x10, 0x77, 0xE1, 0x10, 0, 0, 0, 5, 0, 0, 0, 2, 0, 0, 0, 3,
          65, 66, 67] : List ℕ).drop 16).take
          (Header.fromNetwork [0x10, 0x77, 0xE1, 0x10, 0, 0, 0, 5, 0, 0, 0, 2,
            0, 0, 0, 3, 65, 66, 67]).message_length⟩ :=
  ⟨(decodeFrame_cases [1, 2, 3]).1 (by decide),
   (decodeFrame_cases _).2.1 (by decide) (by decide) (by decide),
   ((decodeFrame_cases _).2.2 (by decide)).1⟩

/-! ## Claim C3 -/

/-- C3 counterexample, two instances of the claim failing.  First: an
uninitialised `MemoryWriter` (the claim as stated quantifies over every
writer state) given the non-4-aligned address `1` falls back to
`writeMemoryDirect`, which (with `/dev/mem` available) performs the write
and reports success.  Second: with the engine's own established mapping
`[0x43C00000, 0x43CC0000)`, the 4-aligned address `2^32 - 4` lies far
outside the window, yet the `uintptr_t` sum `target_address + 4` wraps to
0, the range check is bypassed, and the write proceeds with success. -/
theorem writeMemory_bounds_bypass :
    ((1 % 4 ≠ 0 ∨ 1 < (⟨false, 0, 0⟩ : MemoryWriter).mapped_address ∨
      (⟨false, 0, 0⟩ : MemoryWriter).mapped_address +
        (⟨false, 0, 0⟩ : MemoryWriter).mapped_size < 1 + 4) ∧
    MemoryWriter.writeMemory ⟨false, 0, 0⟩ ⟨true, true⟩ 1 7 =
      (true, [HwEvent.write 1 7])) ∧
    ((0x43C00000 + 0xC0000 < 4294967292 + 4) ∧
    MemoryWriter.writeMemory ⟨true, 0x43C00000, 0xC0000⟩ ⟨true, true⟩
      4294967292 9 = (true, [HwEvent.write 4294967292 9])) := by
  decide

/-- C3 amended: once the `MemoryWriter` holds an established mapping
(`mem_fd != -1 && mapped_base != nullptr`), for every target address below
the top of the 32-bit address space (`target_address + 4 < 2^32`, so the
`uintptr_t` sum does not wrap) and a window whose end does not wrap,
`writeMemory` returns failure and performs no memory access whenever the
address is not 4-byte aligned or `[addr, addr+4)` does not lie fully
inside `[mapped_address, mapped_address + mapped_size)`.  (An
uninitialised writer falls back to `writeMemoryDirect`; at
`target_address ≥ 2^32 - 4` the wrapped sum bypasses the range check.) -/
theorem writeMemory_initialized_rejects (w : MemoryWriter) (env : DirectEnv)
    (t v : ℕ) (hmap : w.mapReady = true) (ht : t + 4 < 4294967296)
    (hwnd : w.mapped_address + w.mapped_size < 4294967296)
    (hbad : t % 4 ≠ 0 ∨ t < w.mapped_address ∨
      w.mapped_address + w.mapped_size < t + 4) :
    w.writeMemory env t v = (false, []) := by
  simp only [MemoryWriter.writeMemory, hmap]
  split
  · exact absurd ‹true = false› (by decide)
  · split
    · rfl
    · split
      · rfl
      · exfalso
        rename_i hal hrange
        rw [Nat.mod_eq_of_lt ht, Nat.mod_eq_of_lt hwnd] at hrange
        omega

/-- C3 witness: the engine's own window `[0x43C00000, 0x43CC0000)` rejects
the misaligned address `0x43C00001`. -/
theorem writeMemory_initialized_rejects_witness :
    MemoryWriter.writeMemory ⟨true, 0x43C00000, 0xC0000⟩ ⟨true, true⟩
      0x43C00001 5 = (false, []) :=
  writeMemory_initialized_rejects ⟨true, 0x43C00000, 0xC0000⟩ ⟨true, true⟩
    0x43C00001 5 rfl (by decide) (by decide) (by decide)

/-! ## Claim C7 -/

/-- Every disposition produced by the `OnReceive` loop satisfies: the
default hook sends an ACK exactly for magic-started non-ACK frames, and a
wrong-magic frame invokes neither the hook nor a handler. -/
theorem onReceive_mem_spec : ∀ (packet : List ℕ) (d : FrameDisposition),
    d ∈ (onReceive packet).1 →
    ((d.ackSent = true ↔
      (d.head.start = MSG_STRAT_CODE ∧ d.head.message_type ≠ MSG_ACK)) ∧
     (d.head.start ≠ MSG_STRAT_CODE →
      d.preInvoked = false ∧ d.dispatched = false))
  | [], d, hd => by simp [onReceive] at hd
  | p0 :: ptail, d, hd => by
    rw [onReceive] at hd
    rcases hdec : decodeFrame (p0 :: ptail) with e | f
    · rw [hdec] at hd
      simp at hd
    · rw [hdec] at hd
      simp only [List.mem_cons] at hd
      rcases hd with rfl | hmem
      · by_cases hstart : f.head.start = MSG_STRAT_CODE
        · simp only [hstart, ne_eq, not_true_eq_false, if_neg, if_false]
          by_cases hack : f.head.message_type = MSG_ACK <;>
            simp [hack, hstart]
        · simp [hstart]
      · exact onReceive_mem_spec
          ((p0 :: ptail).drop (headerSize + f.data.length)) d hmem
termination_by packet => packet.length
decreasing_by
  simp only [headerSize, List.length_drop, List.length_cons]
  omega

/-- C7.  For every frame decoded by `FrameHandler::OnReceive`: an ACK is
sent if and only if the frame's `start` field equals the protocol magic
and its `message_type` is not ACK; a frame whose `start` does not match is
consumed — the scan advances past it by its full length and continues with
the rest — without invoking the pre-message hook or any message handler. -/
theorem onReceive_ack_iff (packet : List ℕ) :
    (∀ d ∈ (onReceive packet).1,
      (d.ackSent = true ↔
        (d.head.start = MSG_STRAT_CODE ∧ d.head.message_type ≠ MSG_ACK)) ∧
      (d.head.start ≠ MSG_STRAT_CODE →
        d.preInvoked = false ∧ d.dispatched = false)) ∧
    (∀ f : Frame, packet ≠ [] → decodeFrame packet = .ok f →
      ∃ d, (onReceive packet).1 =
          d :: (onReceive (packet.drop (headerSize + f.data.length))).1 ∧
        d.head = f.head) := by
  constructor
  · exact fun d hd => onReceive_mem_spec packet d hd
  · intro f hne hdec
    match packet, hne with
    | p0 :: ptail, _ =>
      rw [onReceive]
      simp only [hdec]
      split
      · exact ⟨_, rfl, rfl⟩
      · exact ⟨_, rfl, rfl⟩

/-- C7 witness: a packet holding a single LINES frame yields a disposition
with an ACK sent, and a packet starting with a wrong-magic frame is
consumed with the scan advancing past it. -/
theorem onReceive_ack_iff_witness :
    ((⟨⟨MSG_STRAT_CODE, 2, MSG_LINES, 1⟩, [88], true, true, true⟩ :
        FrameDisposition).ackSent = true ↔
      ((⟨⟨MSG_STRAT_CODE, 2, MSG_LINES, 1⟩, [88], true, true, true⟩ :
        FrameDisposition).head.start = MSG_STRAT_CODE ∧
       (⟨⟨MSG_STRAT_CODE, 2, MSG_LINES, 1⟩, [88], true, true, true⟩ :
        FrameDisposition).head.message_type ≠ MSG_ACK)) ∧
    ∃ d, (onReceive
        [0, 0, 0, 0, 0, 0, 0, 0, 0, 0, 0, 0, 0, 0, 0, 2, 9, 9]).1 =
        d :: (onReceive
          ([0, 0, 0, 0, 0, 0, 0, 0, 0, 0, 0, 0, 0, 0, 0, 2, 9, 9].drop
            (headerSize + 2))).1 ∧
      d.head = Header.mk 0 0 0 2 := by
  have hmem : (⟨⟨MSG_STRAT_CODE, 2, MSG_LINES, 1⟩, [88], true, true, true⟩ :
      FrameDisposition) ∈ (onReceive
        [0x10, 0x77, 0xE1, 0x10, 0, 0, 0, 2, 0, 0, 0, 2, 0, 0, 0, 1,
          88]).1 := by
    rw [onReceive]
    simp only [show decodeFrame
        [0x10, 0x77, 0xE1, 0x10, 0, 0, 0, 2, 0, 0, 0, 2, 0, 0, 0, 1, 88] =
        .ok ⟨⟨MSG_STRAT_CODE, 2, MSG_LINES, 1⟩, [88]⟩ from rfl]
    simp [MSG_STRAT_CODE, MSG_ACK, MSG_LINES]
  refine ⟨((onReceive_ack_iff _).1 _ hmem).1, ?_⟩
  exact (onReceive_ack_iff _).2 ⟨⟨0, 0, 0, 2⟩, [9, 9]⟩ (by decide) rfl

/-! ## Drain-loop lemmas and claim C4 -/

/-- Spec-side description of the drain loop's output: each complete 4-byte
group at the front of the queue, packed big-endian into one word. -/
def flushWords : List ℕ → List ℕ
  | a :: b :: c :: d :: r => (((a * 256 + b) * 256 + c) * 256 + d) :: flushWords r
  | _ => []

/-- Spec-side description of the drain loop's leftover: the 0-3 bytes
remaining after all complete 4-byte groups are removed. -/
def flushRest : List ℕ → List ℕ
  | _ :: _ :: _ :: _ :: r => flushRest r
  | q => q

/-- The drain loop leaves `q.length % 4` bytes in the queue. -/
theorem drainQueue_snd_length : ∀ q : List ℕ,
    (drainQueue q).2.length = q.length % 4
  | [] => rfl
  | [_] => rfl
  | [_, _] => rfl
  | [_, _, _] => rfl
  | a :: b :: c :: d :: r => by
    simp only [drainQueue]
    rw [drainQueue_snd_length r]
    simp only [List.length_cons]
    omega

/-- On byte-valued queues the `uint32_t` shift-accumulate loop computes
exactly the big-endian packing of each front 4-byte group, leaving the
remainder. -/
theorem drainQueue_eq_flush : ∀ q : List ℕ, (∀ x ∈ q, x < 256) →
    drainQueue q = (flushWords q, flushRest q)
  | [], _ => rfl
  | [_], _ => rfl
  | [_, _], _ => rfl
  | [_, _, _], _ => rfl
  | a :: b :: c :: d :: r, hq => by
    have ha : a < 256 := hq a (by simp)
    have hb : b < 256 := hq b (by simp)
    have hc : c < 256 := hq c (by simp)
    have hd : d < 256 := hq d (by simp)
    have hr : ∀ x ∈ r, x < 256 := fun x hx => hq x (by simp [hx])
    have e1 : (0 * 256 + a) % 4294967296 = a := by omega
    have e2 : (a * 256 + b) % 4294967296 = a * 256 + b := by omega
    have e3 : ((a * 256 + b) * 256 + c) % 4294967296 =
        (a * 256 + b) * 256 + c := by omega
    have e4 : (((a * 256 + b) * 256 + c) * 256 + d) % 4294967296 =
        ((a * 256 + b) * 256 + c) * 256 + d := by omega
    simp only [drainQueue, flushWords, flushRest, List.foldl,
      drainQueue_eq_flush r hr, e1, e2, e3, e4]

/-- Every entry of the fixed register table is a byte. -/
theorem register_addrs_getD_lt (i : ℕ) : register_addrs.getD i 0 < 256 := by
  match i with
  | 0 => decide
  | 1 => decide
  | 2 => decide
  | 3 => decide
  | n + 4 =>
    rw [List.getD_eq_default]
    · omega
    · simp [register_addrs]

/-- C4.  Each 2-byte value `(b0 << 8) | b1` consumed by
`parse_binary_commands` appends exactly one 5-byte device command to the
current bus's queue — tag byte `0x28`, the current chip address, the
register address taken from the fixed 4-entry table (the table index
advancing by one per value, cyclically), and the two value bytes — and the
drain loop writes each complete front 4-byte group, packed big-endian into
one 32-bit word, to that bus's FIFO data register `base + 0x10` (and to no
other address in this iteration). -/
theorem pbStep_five_byte_command (s : PBState) (b0 b1 : ℕ)
    (hreg : s.regIdx < 4) (hb0 : b0 < 256) (hb1 : b1 < 256)
    (hq : ∀ x ∈ s.queues s.busId, x < 256) :
    (pbStep s b0 b1).2.1.queues s.busId =
      flushRest (s.queues s.busId ++
        [0x28, s.icAddr % 256, register_addrs.getD s.regIdx 0, b0, b1]) ∧
    (∃ tail, (pbStep s b0 b1).1 =
        (flushWords (s.queues s.busId ++
          [0x28, s.icAddr % 256, register_addrs.getD s.regIdx 0, b0, b1])).map
          (fun w => HwEvent.write (fifoBase s.busId + 0x10) w) ++ tail ∧
        ∀ v, HwEvent.write (fifoBase s.busId + 0x10) v ∉ tail) ∧
    (pbStep s b0 b1).2.1.regIdx = (s.regIdx + 1) % 4 := by
  have hv1 : ((b0 % 256) * 256 + b1 % 256) / 256 = b0 := by omega
  have hv2 : ((b0 % 256) * 256 + b1 % 256) % 256 = b1 := by omega
  have hcmd : ∀ x ∈ s.queues s.busId ++
      [0x28, s.icAddr % 256, register_addrs.getD s.regIdx 0, b0, b1],
      x < 256 := by
    intro x hx
    rcases List.mem_append.mp hx with h | h
    · exact hq x h
    · simp only [List.mem_cons, List.not_mem_nil, or_false] at h
      rcases h with rfl | rfl | rfl | rfl | rfl
      · omega
      · exact Nat.mod_lt _ (by omega)
      · exact register_addrs_getD_lt _
      · exact hb0
      · exact hb1
  have hdq := drainQueue_eq_flush _ hcmd
  set q₀ := s.queues s.busId ++
    [0x28, s.icAddr % 256, register_addrs.getD s.regIdx 0, b0, b1] with hq₀
  set ws := flushWords q₀ with hws
  set lf := flushRest q₀ with hlf
  set base := fifoBase s.busId with hbase
  by_cases h4 : 4 ≤ s.regIdx + 1
  · by_cases hic : 0x1F < s.icAddr + 1
    · by_cases hbus : 7 < s.busId + 1
      · have hstep : pbStep s b0 b1 =
            (ws.map (fun w => HwEvent.write (base + 0x10) w) ++
              [HwEvent.valueDone s.busId lf.length] ++
              [HwEvent.write (base + 0x14) 0x280, HwEvent.read base,
                HwEvent.write base 0xFFFFFFFF, HwEvent.read (base + 0xC),
                HwEvent.busClosed s.busId lf.length],
             ⟨s.busId + 1, 0, 0, Function.update s.queues s.busId lf⟩,
             true) := by
          simp only [pbStep, hv1, hv2, ← hq₀, hdq]
          rw [if_pos h4, if_pos hic, if_pos hbus]
        rw [hstep]
        refine ⟨Function.update_same _ _ _,
          ⟨[HwEvent.valueDone s.busId lf.length,
            HwEvent.write (base + 0x14) 0x280, HwEvent.read base,
            HwEvent.write base 0xFFFFFFFF, HwEvent.read (base + 0xC),
            HwEvent.busClosed s.busId lf.length], by simp, ?_⟩,
          by show (0 : ℕ) = (s.regIdx + 1) % 4; omega⟩
        intro v hv
        simp only [List.mem_cons, List.not_mem_nil, or_false] at hv
        rcases hv with h | h | h | h | h | h
        · exact HwEvent.noConfusion h
        · simp only [HwEvent.write.injEq, hbase, fifoBase] at h
          omega
        · exact HwEvent.noConfusion h
        · simp only [HwEvent.write.injEq, hbase, fifoBase] at h
          omega
        · exact HwEvent.noConfusion h
        · exact HwEvent.noConfusion h
      · have hstep : pbStep s b0 b1 =
            (ws.map (fun w => HwEvent.write (base + 0x10) w) ++
              [HwEvent.valueDone s.busId lf.length] ++
              [HwEvent.write (base + 0x14) 0x280, HwEvent.read base,
                HwEvent.write base 0xFFFFFFFF, HwEvent.read (base + 0xC),
                HwEvent.busClosed s.busId lf.length] ++
              [HwEvent.write (fifoBase (s.busId + 1) + 0x2C) 0x2],
             ⟨s.busId + 1, 0, 0, Function.update s.queues s.busId lf⟩,
             false) := by
          simp only [pbStep, hv1, hv2, ← hq₀, hdq]
          rw [if_pos h4, if_pos hic, if_neg hbus]
        rw [hstep]
        refine ⟨Function.update_same _ _ _,
          ⟨[HwEvent.valueDone s.busId lf.length,
            HwEvent.write (base + 0x14) 0x280, HwEvent.read base,
            HwEvent.write base 0xFFFFFFFF, HwEvent.read (base + 0xC),
            HwEvent.busClosed s.busId lf.length,
            HwEvent.write (fifoBase (s.busId + 1) + 0x2C) 0x2],
           by simp, ?_⟩, by show (0 : ℕ) = (s.regIdx + 1) % 4; omega⟩
        intro v hv
        simp only [List.mem_cons, List.not_mem_nil, or_false] at hv
        rcases hv with h | h | h | h | h | h | h
        · exact HwEvent.noConfusion h
        · simp only [HwEvent.write.injEq, hbase, fifoBase] at h
          omega
        · exact HwEvent.noConfusion h
        · simp only [HwEvent.write.injEq, hbase, fifoBase] at h
          omega
        · exact HwEvent.noConfusion h
        · exact HwEvent.noConfusion h
        · simp only [HwEvent.write.injEq, hbase, fifoBase] at h
          omega
    · have hstep : pbStep s b0 b1 =
          (ws.map (fun w => HwEvent.write (base + 0x10) w) ++
            [HwEvent.valueDone s.busId lf.length],
           ⟨s.busId, s.icAddr + 1, 0, Function.update s.queues s.busId lf⟩,
           false) := by
        simp only [pbStep, hv1, hv2, ← hq₀, hdq]
        rw [if_pos h4, if_neg hic]
      rw [hstep]
      refine ⟨Function.update_same _ _ _,
        ⟨[HwEvent.valueDone s.busId lf.length], by simp, ?_⟩,
          by show (0 : ℕ) = (s.regIdx + 1) % 4; omega⟩
      intro v hv
      simp only [List.mem_cons, List.not_mem_nil, or_false] at hv
      exact HwEvent.noConfusion hv
  · have hstep : pbStep s b0 b1 =
        (ws.map (fun w => HwEvent.write (base + 0x10) w) ++
          [HwEvent.valueDone s.busId lf.length],
         ⟨s.busId, s.icAddr, s.regIdx + 1,
           Function.update s.queues s.busId lf⟩,
         false) := by
      simp only [pbStep, hv1, hv2, ← hq₀, hdq]
      rw [if_neg h4]
    rw [hstep]
    refine ⟨Function.update_same _ _ _,
      ⟨[HwEvent.valueDone s.busId lf.length], by simp, ?_⟩,
        by show s.regIdx + 1 = (s.regIdx + 1) % 4; omega⟩
    intro v hv
    simp only [List.mem_cons, List.not_mem_nil, or_false] at hv
    exact HwEvent.noConfusion hv

/-- C4 witness: one value `0x0102` on the fresh state (bus 0, chip 0,
register index 0, empty queues). -/
theorem pbStep_five_byte_command_witness :
    (pbStep ⟨0, 0, 0, fun _ => []⟩ 1 2).2.1.queues 0 =
      flushRest ([] ++ [0x28, 0 % 256, register_addrs.getD 0 0, 1, 2]) ∧
    (∃ tail, (pbStep ⟨0, 0, 0, fun _ => []⟩ 1 2).1 =
        (flushWords ([] ++ [0x28, 0 % 256, register_addrs.getD 0 0, 1, 2])).map
          (fun w => HwEvent.write (fifoBase 0 + 0x10) w) ++ tail ∧
        ∀ v, HwEvent.write (fifoBase 0 + 0x10) v ∉ tail) ∧
    (pbStep ⟨0, 0, 0, fun _ => []⟩ 1 2).2.1.regIdx = (0 + 1) % 4 :=
  pbStep_five_byte_command ⟨0, 0, 0, fun _ => []⟩ 1 2 (by decide) (by omega)
    (by omega) (by simp)

/-! ## Per-branch descriptions of `pbStep` -/

/-- The 5-byte device command appended for one 2-byte value. -/
def cmdBytes (s : PBState) (b0 b1 : ℕ) : List ℕ :=
  [0x28, s.icAddr % 256, register_addrs.getD s.regIdx 0,
    ((b0 % 256) * 256 + b1 % 256) / 256, ((b0 % 256) * 256 + b1 % 256) % 256]

/-- The drain-loop output for one value: words flushed and leftover queue. -/
def stepDrain (s : PBState) (b0 b1 : ℕ) : List ℕ × List ℕ :=
  drainQueue (s.queues s.busId ++ cmdBytes s b0 b1)

/-- `pbStep` when the register index does not wrap. -/
theorem pbStep_eq_low (s : PBState) (b0 b1 : ℕ) (h4 : ¬ 4 ≤ s.regIdx + 1) :
    pbStep s b0 b1 =
      ((stepDrain s b0 b1).1.map
          (fun w => HwEvent.write (fifoBase s.busId + 0x10) w) ++
        [HwEvent.valueDone s.busId (stepDrain s b0 b1).2.length],
       ⟨s.busId, s.icAddr, s.regIdx + 1,
         Function.update s.queues s.busId (stepDrain s b0 b1).2⟩,
       false) := by
  simp only [pbStep, stepDrain, cmdBytes]
  rw [if_neg h4]

/-- `pbStep` when the register index wraps but the chip address does not. -/
theorem pbStep_eq_chip (s : PBState) (b0 b1 : ℕ) (h4 : 4 ≤ s.regIdx + 1)
    (hic : ¬ 0x1F < s.icAddr + 1) :
    pbStep s b0 b1 =
      ((stepDrain s b0 b1).1.map
          (fun w => HwEvent.write (fifoBase s.busId + 0x10) w) ++
        [HwEvent.valueDone s.busId (stepDrain s b0 b1).2.length],
       ⟨s.busId, s.icAddr + 1, 0,
         Function.update s.queues s.busId (stepDrain s b0 b1).2⟩,
       false) := by
  simp only [pbStep, stepDrain, cmdBytes]
  rw [if_pos h4, if_neg hic]

/-- `pbStep` at a bus boundary, moving on to the next bus: the bus-close
sequence then the next bus's open write. -/
theorem pbStep_eq_nextbus (s : PBState) (b0 b1 : ℕ) (h4 : 4 ≤ s.regIdx + 1)
    (hic : 0x1F < s.icAddr + 1) (hbus : ¬ 7 < s.busId + 1) :
    pbStep s b0 b1 =
      ((stepDrain s b0 b1).1.map
          (fun w => HwEvent.write (fifoBase s.busId + 0x10) w) ++
        [HwEvent.valueDone s.busId (stepDrain s b0 b1).2.length] ++
        [HwEvent.write (fifoBase s.busId + 0x14) 0x280,
          HwEvent.read (fifoBase s.busId),
          HwEvent.write (fifoBase s.busId) 0xFFFFFFFF,
          HwEvent.read (fifoBase s.busId + 0xC),
          HwEvent.busClosed s.busId (stepDrain s b0 b1).2.length] ++
        [HwEvent.write (fifoBase (s.busId + 1) + 0x2C) 0x2],
       ⟨s.busId + 1, 0, 0,
         Function.update s.queues s.busId (stepDrain s b0 b1).2⟩,
       false) := by
  simp only [pbStep, stepDrain, cmdBytes]
  rw [if_pos h4, if_pos hic, if_neg hbus]

/-- `pbStep` at the final bus boundary: bus 7 closes and the loop breaks. -/
theorem pbStep_eq_break (s : PBState) (b0 b1 : ℕ) (h4 : 4 ≤ s.regIdx + 1)
    (hic : 0x1F < s.icAddr + 1) (hbus : 7 < s.busId + 1) :
    pbStep s b0 b1 =
      ((stepDrain s b0 b1).1.map
          (fun w => HwEvent.write (fifoBase s.busId + 0x10) w) ++
        [HwEvent.valueDone s.busId (stepDrain s b0 b1).2.length] ++
        [HwEvent.write (fifoBase s.busId + 0x14) 0x280,
          HwEvent.read (fifoBase s.busId),
          HwEvent.write (fifoBase s.busId) 0xFFFFFFFF,
          HwEvent.read (fifoBase s.busId + 0xC),
          HwEvent.busClosed s.busId (stepDrain s b0 b1).2.length],
       ⟨s.busId + 1, 0, 0,
         Function.update s.queues s.busId (stepDrain s b0 b1).2⟩,
       true) := by
  simp only [pbStep, stepDrain, cmdBytes]
  rw [if_pos h4, if_pos hic, if_pos hbus]

/-- Every `valueDone` event of one step carries a queue length `≤ 3`
(the drain loop leaves `length % 4` bytes). -/
theorem pbStep_valueDone_le (s : PBState) (b0 b1 b q : ℕ)
    (h : HwEvent.valueDone b q ∈ (pbStep s b0 b1).1) : q ≤ 3 := by
  have hlen := drainQueue_snd_length (s.queues s.busId ++ cmdBytes s b0 b1)
  have hmain : ∀ q', q' = (stepDrain s b0 b1).2.length → q' ≤ 3 := by
    intro q' hq'
    have hl2 : (stepDrain s b0 b1).2.length =
        (s.queues s.busId ++ cmdBytes s b0 b1).length % 4 := hlen
    omega
  by_cases h4 : 4 ≤ s.regIdx + 1
  · by_cases hic : 0x1F < s.icAddr + 1
    · by_cases hbus : 7 < s.busId + 1
      · rw [pbStep_eq_break s b0 b1 h4 hic hbus] at h
        simp only [List.mem_append, List.mem_map, List.mem_cons,
          List.not_mem_nil, or_false] at h
        rcases h with ((⟨w, _, hw⟩ | h) | h | h | h | h | h) <;>
          first
            | exact HwEvent.noConfusion hw
            | exact HwEvent.noConfusion h
            | exact hmain q (congrArg (fun e => match e with
                | HwEvent.valueDone _ ql => ql
                | _ => 0) h)
      · rw [pbStep_eq_nextbus s b0 b1 h4 hic hbus] at h
        simp only [List.mem_append, List.mem_map, List.mem_cons,
          List.not_mem_nil, or_false] at h
        rcases h with ((⟨w, _, hw⟩ | h) | h | h | h | h | h) | h <;>
          first
            | exact HwEvent.noConfusion hw
            | exact HwEvent.noConfusion h
            | exact hmain q (congrArg (fun e => match e with
                | HwEvent.valueDone _ ql => ql
                | _ => 0) h)
    · rw [pbStep_eq_chip s b0 b1 h4 hic] at h
      simp only [List.mem_append, List.mem_map, List.mem_cons,
        List.not_mem_nil, or_false] at h
      rcases h with ⟨w, _, hw⟩ | h
      · exact HwEvent.noConfusion hw
      · exact hmain q (congrArg (fun e => match e with
          | HwEvent.valueDone _ ql => ql
          | _ => 0) h)
  · rw [pbStep_eq_low s b0 b1 h4] at h
    simp only [List.mem_append, List.mem_map, List.mem_cons,
      List.not_mem_nil, or_false] at h
    rcases h with ⟨w, _, hw⟩ | h
    · exact HwEvent.noConfusion hw
    · exact hmain q (congrArg (fun e => match e with
        | HwEvent.valueDone _ ql => ql
        | _ => 0) h)

/-- A `busClosed` event of one step is always for the current bus, carries
the post-drain queue length `(qlen + 5) % 4`, and occurs only when the
register index wraps. -/
theorem pbStep_busClosed_facts (s : PBState) (b0 b1 b q : ℕ)
    (h : HwEvent.busClosed b q ∈ (pbStep s b0 b1).1) :
    b = s.busId ∧ q = ((s.queues s.busId).length + 5) % 4 ∧
      4 ≤ s.regIdx + 1 := by
  have hlen : (stepDrain s b0 b1).2.length =
      (s.queues s.busId ++ cmdBytes s b0 b1).length % 4 :=
    drainQueue_snd_length _
  have hcl : (s.queues s.busId ++ cmdBytes s b0 b1).length =
      (s.queues s.busId).length + 5 := by
    simp [cmdBytes]
  by_cases h4 : 4 ≤ s.regIdx + 1
  · by_cases hic : 0x1F < s.icAddr + 1
    · by_cases hbus : 7 < s.busId + 1
      · rw [pbStep_eq_break s b0 b1 h4 hic hbus] at h
        simp only [List.mem_append, List.mem_map, List.mem_cons,
          List.not_mem_nil, or_false, HwEvent.busClosed.injEq] at h
        rcases h with ((⟨w, _, hw⟩ | h) | h | h | h | h | ⟨rfl, rfl⟩) <;>
          first
            | exact HwEvent.noConfusion hw
            | exact HwEvent.noConfusion h
            | exact ⟨rfl, by omega, h4⟩
      · rw [pbStep_eq_nextbus s b0 b1 h4 hic hbus] at h
        simp only [List.mem_append, List.mem_map, List.mem_cons,
          List.not_mem_nil, or_false, HwEvent.busClosed.injEq] at h
        rcases h with ((⟨w, _, hw⟩ | h) | h | h | h | h | ⟨rfl, rfl⟩) | h <;>
          first
            | exact HwEvent.noConfusion hw
            | exact HwEvent.noConfusion h
            | exact ⟨rfl, by omega, h4⟩
    · rw [pbStep_eq_chip s b0 b1 h4 hic] at h
      simp only [List.mem_append, List.mem_map, List.mem_cons,
        List.not_mem_nil, or_false] at h
      rcases h with ⟨w, _, hw⟩ | h
      · exact HwEvent.noConfusion hw
      · exact HwEvent.noConfusion h
  · rw [pbStep_eq_low s b0 b1 h4] at h
    simp only [List.mem_append, List.mem_map, List.mem_cons,
      List.not_mem_nil, or_false] at h
    rcases h with ⟨w, _, hw⟩ | h
    · exact HwEvent.noConfusion hw
    · exact HwEvent.noConfusion h

/-- One step preserves the loop invariant: the register index stays below
4, the current bus's queue holds exactly `regIdx` leftover bytes, and all
higher buses' queues are untouched (empty). -/
theorem pbStep_state_inv (s : PBState) (b0 b1 : ℕ)
    (hreg : s.regIdx < 4)
    (hql : (s.queues s.busId).length = s.regIdx)
    (hfut : ∀ b, s.busId < b → s.queues b = []) :
    (pbStep s b0 b1).2.1.regIdx < 4 ∧
    ((pbStep s b0 b1).2.1.queues (pbStep s b0 b1).2.1.busId).length =
      (pbStep s b0 b1).2.1.regIdx ∧
    (∀ b, (pbStep s b0 b1).2.1.busId < b →
      (pbStep s b0 b1).2.1.queues b = []) := by
  have hlen : (stepDrain s b0 b1).2.length =
      (s.queues s.busId ++ cmdBytes s b0 b1).length % 4 :=
    drainQueue_snd_length _
  have hcl : (s.queues s.busId ++ cmdBytes s b0 b1).length =
      (s.queues s.busId).length + 5 := by
    simp [cmdBytes]
  by_cases h4 : 4 ≤ s.regIdx + 1
  · by_cases hic : 0x1F < s.icAddr + 1
    · by_cases hbus : 7 < s.busId + 1
      · rw [pbStep_eq_break s b0 b1 h4 hic hbus]
        dsimp only
        refine ⟨by omega, ?_, ?_⟩
        · rw [Function.update_noteq (by omega)]
          rw [hfut (s.busId + 1) (by omega)]
          rfl
        · intro b hb
          rw [Function.update_noteq (by omega)]
          exact hfut b (by omega)
      · rw [pbStep_eq_nextbus s b0 b1 h4 hic hbus]
        dsimp only
        refine ⟨by omega, ?_, ?_⟩
        · rw [Function.update_noteq (by omega)]
          rw [hfut (s.busId + 1) (by omega)]
          rfl
        · intro b hb
          rw [Function.update_noteq (by omega)]
          exact hfut b (by omega)
    · rw [pbStep_eq_chip s b0 b1 h4 hic]
      dsimp only
      refine ⟨by omega, ?_, ?_⟩
      · rw [Function.update_same]
        omega
      · intro b hb
        rw [Function.update_noteq (by omega)]
        exact hfut b hb
  · rw [pbStep_eq_low s b0 b1 h4]
    dsimp only
    refine ⟨by omega, ?_, ?_⟩
    · rw [Function.update_same]
      omega
    · intro b hb
      rw [Function.update_noteq (by omega)]
      exact hfut b hb

/-- Along any run of the value loop, every `valueDone` observation carries
a leftover queue length of at most 3 bytes. -/
theorem pbLoop_valueDone_le : ∀ (data : List ℕ) (s : PBState) (b q : ℕ),
    HwEvent.valueDone b q ∈ (pbLoop data s).1 → q ≤ 3
  | [], _, b, q => by simp [pbLoop]
  | [b0], s, b, q => fun h => by
    simp only [pbLoop] at h
    exact pbStep_valueDone_le s b0 0 b q h
  | b0 :: b1 :: r, s, b, q => fun h => by
    simp only [pbLoop] at h
    by_cases hbrk : (pbStep s b0 b1).2.2 = true
    · rw [if_pos hbrk] at h
      exact pbStep_valueDone_le s b0 b1 b q h
    · rw [if_neg hbrk] at h
      rcases List.mem_append.mp h with h | h
      · exact pbStep_valueDone_le s b0 b1 b q h
      · exact pbLoop_valueDone_le r (pbStep s b0 b1).2.1 b q h

/-- Along any run of the value loop started with the invariant (queue
holding `regIdx` bytes, higher buses empty), every `busClosed` observation
carries an empty queue. -/
theorem pbLoop_busClosed_zero : ∀ (data : List ℕ) (s : PBState),
    s.regIdx < 4 → (s.queues s.busId).length = s.regIdx →
    (∀ b, s.busId < b → s.queues b = []) →
    ∀ b q, HwEvent.busClosed b q ∈ (pbLoop data s).1 → q = 0
  | [], _, _, _, _, b, q => by simp [pbLoop]
  | [b0], s, hreg, hql, hfut, b, q => fun h => by
    simp only [pbLoop] at h
    have hf := pbStep_busClosed_facts s b0 0 b q h
    omega
  | b0 :: b1 :: r, s, hreg, hql, hfut, b, q => fun h => by
    simp only [pbLoop] at h
    by_cases hbrk : (pbStep s b0 b1).2.2 = true
    · rw [if_pos hbrk] at h
      have hf := pbStep_busClosed_facts s b0 b1 b q h
      omega
    · rw [if_neg hbrk] at h
      rcases List.mem_append.mp h with h | h
      · have hf := pbStep_busClosed_facts s b0 b1 b q h
        omega
      · have hs := pbStep_state_inv s b0 b1 hreg hql hfut
        exact pbLoop_busClosed_zero r (pbStep s b0 b1).2.1 hs.1 hs.2.1
          hs.2.2 b q h

/-! ## Claim C5 -/

set_option maxRecDepth 100000 in
/-- C5 counterexample: the per-bus queues live in the namespace-scope
global `byte_queues` (`SpiwriteCommand.cpp` line 241), which persists
across calls and is never cleared on entry nor checked before a close.  A
first call carrying a single value `0x0102` leaves the stale byte `[2]` in
bus 0's queue; a second call (3 prefix bytes and 128 values) then issues
bus 0's close sequence with 1 byte still in the queue — refuting the
original claim that the queue is empty at every bus-close. -/
theorem parse_binary_close_nonempty_queue :
    (parse_binary_commands (fun _ => []) [0, 0, 0, 1, 2]).2.2.queues 0 =
      [2] ∧
    HwEvent.busClosed 0 1 ∈
      (parse_binary_commands
        ((parse_binary_commands (fun _ => []) [0, 0, 0, 1, 2]).2.2.queues)
        (List.replicate 259 0)).2.1 := by
  constructor
  · rfl
  · decide

/-- C5 amended.  Throughout any run of `parse_binary_commands` that starts
with every per-bus byte queue empty (as the global `byte_queues` is at
program start; a prior partially-flushed command can instead leave 1-3
stale bytes behind, and a later bus-close then sees a non-empty queue),
after the drain loop completes for each consumed value the current bus's
byte queue holds between 0 and 3 leftover bytes, and at the moment a
bus-close sequence is issued for a bus, that bus's queue is empty. -/
theorem parse_binary_commands_queue_invariant (binary_data : List ℕ) :
    (∀ b q, HwEvent.valueDone b q ∈
      (parse_binary_commands (fun _ => []) binary_data).2.1 → q ≤ 3) ∧
    (∀ b q, HwEvent.busClosed b q ∈
      (parse_binary_commands (fun _ => []) binary_data).2.1 → q = 0) := by
  constructor
  · intro b q h
    exact pbLoop_valueDone_le (binary_data.drop 3) ⟨0, 0, 0, fun _ => []⟩
      b q h
  · intro b q h
    exact pbLoop_busClosed_zero (binary_data.drop 3) ⟨0, 0, 0, fun _ => []⟩
      (by decide) rfl (fun _ _ => rfl) b q h

set_option maxRecDepth 100000 in
/-- C5 witness: a 259-byte buffer (3 prefix bytes and 128 values) produces
a `valueDone` observation with 1 leftover byte and the bus-0 close with an
empty queue. -/
theorem parse_binary_commands_queue_invariant_witness :
    (1 : ℕ) ≤ 3 ∧ (0 : ℕ) = 0 :=
  ⟨(parse_binary_commands_queue_invariant (List.replicate 259 0)).1 0 1
      (by decide),
   (parse_binary_commands_queue_invariant (List.replicate 259 0)).2 0 0
      (by decide)⟩

/-! ## Bus bounds and the full-stream run (claim C1) -/

theorem busOf_write_fifo (b off v : ℕ) (hoff : off < 65536) :
    (HwEvent.write (fifoBase b + off) v).busOf = b := by
  simp only [HwEvent.busOf, fifoBase]
  omega

theorem busOf_read_fifo (b off : ℕ) (hoff : off < 65536) :
    (HwEvent.read (fifoBase b + off)).busOf = b := by
  simp only [HwEvent.busOf, fifoBase]
  omega

theorem busOf_write_base (b v : ℕ) :
    (HwEvent.write (fifoBase b) v).busOf = b := by
  simp only [HwEvent.busOf, fifoBase]
  omega

theorem busOf_read_base (b : ℕ) : (HwEvent.read (fifoBase b)).busOf = b := by
  simp only [HwEvent.busOf, fifoBase]
  omega

/-- While the current bus id is at most 7, every event of one step touches
a bus id of at most 7 (the only forward reference is the next bus's open
write, which is issued only when the next bus id is still at most 7). -/
theorem pbStep_busOf_le (s : PBState) (b0 b1 : ℕ) (hbus : s.busId ≤ 7) :
    ∀ e ∈ (pbStep s b0 b1).1, e.busOf ≤ 7 := by
  intro e he
  by_cases h4 : 4 ≤ s.regIdx + 1
  · by_cases hic : 0x1F < s.icAddr + 1
    · by_cases hbb : 7 < s.busId + 1
      · rw [pbStep_eq_break s b0 b1 h4 hic hbb] at he
        simp only [List.mem_append, List.mem_map, List.mem_cons,
          List.not_mem_nil, or_false] at he
        rcases he with ((⟨w, _, rfl⟩ | rfl) | rfl | rfl | rfl | rfl | rfl)
        · rw [busOf_write_fifo _ _ _ (by omega)]
          omega
        · exact hbus
        · rw [busOf_write_fifo _ _ _ (by omega)]
          omega
        · rw [busOf_read_base]
          omega
        · rw [busOf_write_base]
          omega
        · rw [busOf_read_fifo _ _ (by omega)]
          omega
        · exact hbus
      · rw [pbStep_eq_nextbus s b0 b1 h4 hic hbb] at he
        simp only [List.mem_append, List.mem_map, List.mem_cons,
          List.not_mem_nil, or_false] at he
        rcases he with ((⟨w, _, rfl⟩ | rfl) | rfl | rfl | rfl | rfl | rfl) | rfl
        · rw [busOf_write_fifo _ _ _ (by omega)]
          omega
        · exact hbus
        · rw [busOf_write_fifo _ _ _ (by omega)]
          omega
        · rw [busOf_read_base]
          omega
        · rw [busOf_write_base]
          omega
        · rw [busOf_read_fifo _ _ (by omega)]
          omega
        · exact hbus
        · rw [busOf_write_fifo _ _ _ (by omega)]
          omega
    · rw [pbStep_eq_chip s b0 b1 h4 hic] at he
      simp only [List.mem_append, List.mem_map, List.mem_cons,
        List.not_mem_nil, or_false] at he
      rcases he with ⟨w, _, rfl⟩ | rfl
      · rw [busOf_write_fifo _ _ _ (by omega)]
        omega
      · exact hbus
  · rw [pbStep_eq_low s b0 b1 h4] at he
    simp only [List.mem_append, List.mem_map, List.mem_cons,
      List.not_mem_nil, or_false] at he
    rcases he with ⟨w, _, rfl⟩ | rfl
    · rw [busOf_write_fifo _ _ _ (by omega)]
      omega
    · exact hbus

/-- The number of 2-byte values still to consume before the cursor moves
past bus 7 (128 values close one bus: 4 register cycles for each of the
32 chip addresses `0x00`-`0x1F`). -/
def valuesLeft (s : PBState) : ℕ :=
  (8 - s.busId) * 128 - (s.icAddr * 4 + s.regIdx)

/-- Master induction for the exact-length run: fed exactly `valuesLeft s`
values (2 bytes each), the loop closes every bus from the current one
through bus 7, touches no bus past 7, and leaves the cursor at bus 8. -/
theorem pbLoop_full : ∀ (data : List ℕ) (s : PBState),
    s.regIdx < 4 → s.icAddr < 32 → s.busId < 8 →
    data.length = 2 * valuesLeft s →
    (∀ b, s.busId ≤ b → b < 8 →
      HwEvent.write (fifoBase b + 0x14) 0x280 ∈ (pbLoop data s).1 ∧
      ∃ q, HwEvent.busClosed b q ∈ (pbLoop data s).1) ∧
    (∀ e ∈ (pbLoop data s).1, e.busOf ≤ 7) ∧
    (pbLoop data s).2.busId = 8
  | [], s, hreg, hic, hbus, hlen => by
    exfalso
    simp only [valuesLeft, List.length_nil] at hlen
    omega
  | [b0], s, hreg, hic, hbus, hlen => by
    exfalso
    simp only [valuesLeft, List.length_singleton] at hlen
    omega
  | b0 :: b1 :: r, s, hreg, hic, hbus, hlen => by
    have hrlen : r.length = 2 * (valuesLeft s - 1) := by
      have hvl : 1 ≤ valuesLeft s := by
        simp only [valuesLeft]
        omega
      simp only [List.length_cons] at hlen
      omega
    by_cases h4 : 4 ≤ s.regIdx + 1
    · by_cases hicc : 0x1F < s.icAddr + 1
      · by_cases hbb : 7 < s.busId + 1
        · -- final bus boundary: close bus 7 and break
          have hstep := pbStep_eq_break s b0 b1 h4 hicc hbb
          have hpb : pbLoop (b0 :: b1 :: r) s =
              ((pbStep s b0 b1).1, (pbStep s b0 b1).2.1) := by
            simp only [pbLoop]
            rw [if_pos (by rw [hstep])]
          rw [hpb]
          refine ⟨?_, ?_, ?_⟩
          · intro b hb1 hb2
            have hbeq : b = s.busId := by omega
            subst hbeq
            rw [hstep]
            constructor
            · simp
            · exact ⟨(stepDrain s b0 b1).2.length, by simp⟩
          · exact pbStep_busOf_le s b0 b1 (by omega)
          · rw [hstep]
            show s.busId + 1 = 8
            omega
        · -- close this bus and open the next one
          have hstep := pbStep_eq_nextbus s b0 b1 h4 hicc hbb
          have hbrk : (pbStep s b0 b1).2.2 = false := by rw [hstep]
          have hpb : pbLoop (b0 :: b1 :: r) s =
              ((pbStep s b0 b1).1 ++ (pbLoop r (pbStep s b0 b1).2.1).1,
               (pbLoop r (pbStep s b0 b1).2.1).2) := by
            simp only [pbLoop]
            rw [if_neg (by rw [hbrk]; simp)]
          have hfb : ((pbStep s b0 b1).2.1).busId = s.busId + 1 := by
            rw [hstep]
          have hfi : ((pbStep s b0 b1).2.1).icAddr = 0 := by rw [hstep]
          have hfr : ((pbStep s b0 b1).2.1).regIdx = 0 := by rw [hstep]
          have hvl' : r.length = 2 * valuesLeft ((pbStep s b0 b1).2.1) := by
            simp only [valuesLeft, hfb, hfi, hfr, valuesLeft] at hrlen ⊢
            omega
          have IH := pbLoop_full r ((pbStep s b0 b1).2.1) (by omega)
            (by omega) (by omega) hvl'
          rw [hpb]
          refine ⟨?_, ?_, ?_⟩
          · intro b hb1 hb2
            by_cases hbeq : b = s.busId
            · subst hbeq
              constructor
              · refine List.mem_append_left _ ?_
                rw [hstep]
                simp
              · refine ⟨(stepDrain s b0 b1).2.length,
                  List.mem_append_left _ ?_⟩
                rw [hstep]
                simp
            · have hIHb := IH.1 b (by omega) hb2
              exact ⟨List.mem_append_right _ hIHb.1,
                ⟨hIHb.2.choose, List.mem_append_right _ hIHb.2.choose_spec⟩⟩
          · intro e he
            rcases List.mem_append.mp he with h | h
            · exact pbStep_busOf_le s b0 b1 (by omega) e h
            · exact IH.2.1 e h
          · exact IH.2.2
      · -- advance the chip address on the same bus
        have hstep := pbStep_eq_chip s b0 b1 h4 hicc
        have hbrk : (pbStep s b0 b1).2.2 = false := by rw [hstep]
        have hpb : pbLoop (b0 :: b1 :: r) s =
            ((pbStep s b0 b1).1 ++ (pbLoop r (pbStep s b0 b1).2.1).1,
             (pbLoop r (pbStep s b0 b1).2.1).2) := by
          simp only [pbLoop]
          rw [if_neg (by rw [hbrk]; simp)]
        have hfb : ((pbStep s b0 b1).2.1).busId = s.busId := by rw [hstep]
        have hfi : ((pbStep s b0 b1).2.1).icAddr = s.icAddr + 1 := by
          rw [hstep]
        have hfr : ((pbStep s b0 b1).2.1).regIdx = 0 := by rw [hstep]
        have hvl' : r.length = 2 * valuesLeft ((pbStep s b0 b1).2.1) := by
          simp only [valuesLeft, hfb, hfi, hfr, valuesLeft] at hrlen ⊢
          omega
        have IH := pbLoop_full r ((pbStep s b0 b1).2.1) (by omega)
          (by omega) (by omega) hvl'
        rw [hpb]
        refine ⟨?_, ?_, ?_⟩
        · intro b hb1 hb2
          have hIHb := IH.1 b (by omega) hb2
          exact ⟨List.mem_append_right _ hIHb.1,
            ⟨hIHb.2.choose, List.mem_append_right _ hIHb.2.choose_spec⟩⟩
        · intro e he
          rcases List.mem_append.mp he with h | h
          · exact pbStep_busOf_le s b0 b1 (by omega) e h
          · exact IH.2.1 e h
        · exact IH.2.2
    · -- advance the register index on the same chip
      have hstep := pbStep_eq_low s b0 b1 h4
      have hbrk : (pbStep s b0 b1).2.2 = false := by rw [hstep]
      have hpb : pbLoop (b0 :: b1 :: r) s =
          ((pbStep s b0 b1).1 ++ (pbLoop r (pbStep s b0 b1).2.1).1,
           (pbLoop r (pbStep s b0 b1).2.1).2) := by
        simp only [pbLoop]
        rw [if_neg (by rw [hbrk]; simp)]
      have hfb : ((pbStep s b0 b1).2.1).busId = s.busId := by rw [hstep]
      have hfi : ((pbStep s b0 b1).2.1).icAddr = s.icAddr := by rw [hstep]
      have hfr : ((pbStep s b0 b1).2.1).regIdx = s.regIdx + 1 := by
        rw [hstep]
      have hvl' : r.length = 2 * valuesLeft ((pbStep s b0 b1).2.1) := by
        simp only [valuesLeft, hfb, hfi, hfr, valuesLeft] at hrlen ⊢
        omega
      have IH := pbLoop_full r ((pbStep s b0 b1).2.1) (by omega)
        (by omega) (by omega) hvl'
      rw [hpb]
      refine ⟨?_, ?_, ?_⟩
      · intro b hb1 hb2
        have hIHb := IH.1 b (by omega) hb2
        exact ⟨List.mem_append_right _ hIHb.1,
          ⟨hIHb.2.choose, List.mem_append_right _ hIHb.2.choose_spec⟩⟩
      · intro e he
        rcases List.mem_append.mp he with h | h
        · exact pbStep_busOf_le s b0 b1 (by omega) e h
        · exact IH.2.1 e h
      · exact IH.2.2

/-! ## Claim C1 -/

/-- C1.  For every input buffer to `parse_binary_commands` containing
exactly `4 regs × 32 chips × 8 buses = 1024` two-byte big-endian phase
values (after the 3 bytes the function skips at `offset = 3`), and from
any starting queue contents: execution drives the bus cursor through all 8
buses — every bus id 0 through 7 receives its bus-close sequence — and
terminates with the cursor past bus 7 without opening, writing to or
reading from a 9th bus (no event touches a bus id above 7). -/
theorem parse_binary_commands_full_stream (queues₀ : ℕ → List ℕ)
    (p0 p1 p2 : ℕ) (vals : List ℕ) (hlen : vals.length = 2048) :
    (∀ b, b < 8 →
      HwEvent.write (fifoBase b + 0x14) 0x280 ∈
        (parse_binary_commands queues₀ (p0 :: p1 :: p2 :: vals)).2.1 ∧
      ∃ q, HwEvent.busClosed b q ∈
        (parse_binary_commands queues₀ (p0 :: p1 :: p2 :: vals)).2.1) ∧
    (∀ e ∈ (parse_binary_commands queues₀ (p0 :: p1 :: p2 :: vals)).2.1,
      e.busOf ≤ 7) ∧
    (parse_binary_commands queues₀ (p0 :: p1 :: p2 :: vals)).2.2.busId =
      8 := by
  have hdrop : (p0 :: p1 :: p2 :: vals).drop 3 = vals := rfl
  have hmain := pbLoop_full vals ⟨0, 0, 0, queues₀⟩
    (by show (0 : ℕ) < 4; omega) (by show (0 : ℕ) < 32; omega)
    (by show (0 : ℕ) < 8; omega)
    (by show vals.length = 2 * 1024; omega)
  exact ⟨fun b hb => hmain.1 b (Nat.zero_le b) hb, hmain.2.1, hmain.2.2⟩

/-- C1 witness: the all-zero full stream of 3 prefix bytes and 1024
values. -/
theorem parse_binary_commands_full_stream_witness :
    (∀ b, b < 8 →
      HwEvent.write (fifoBase b + 0x14) 0x280 ∈
        (parse_binary_commands (fun _ => [])
          (0 :: 0 :: 0 :: List.replicate 2048 0)).2.1 ∧
      ∃ q, HwEvent.busClosed b q ∈
        (parse_binary_commands (fun _ => [])
          (0 :: 0 :: 0 :: List.replicate 2048 0)).2.1) ∧
    (∀ e ∈ (parse_binary_commands (fun _ => [])
        (0 :: 0 :: 0 :: List.replicate 2048 0)).2.1, e.busOf ≤ 7) ∧
    (parse_binary_commands (fun _ => [])
        (0 :: 0 :: 0 :: List.replicate 2048 0)).2.2.busId = 8 :=
  parse_binary_commands_full_stream (fun _ => []) 0 0 0
    (List.replicate 2048 0) (by rw [List.length_replicate])

/-! ## Claim C9 -/

/-- C9.  Every command string that does not start with `BINARY:` and whose
first token after splitting on space and `&` is neither `start` nor `done`
yields the unrecognized `Result{"what?"}` and touches no hardware register
(the trace of issued accesses is empty). -/
theorem Execute_unrecognized_no_hw (queues₀ : ℕ → List ℕ)
    (dec : List ℕ → Except String (List ℕ)) (pollCount : ℕ)
    (raw : List Char) (hb : raw.take 7 ≠ "BINARY:".data)
    (_ht : tokenize raw ≠ [])
    (h1 : (tokenize raw).headD [] ≠ "start".data)
    (h2 : (tokenize raw).headD [] ≠ "done".data) :
    Execute queues₀ dec pollCount raw = (⟨"what?", []⟩, []) := by
  simp only [Execute, if_neg hb, parse_text_commands, if_neg h1, if_neg h2]

/-- C9 witness: the command `hello` is unrecognized and hardware-silent. -/
theorem Execute_unrecognized_no_hw_witness :
    Execute (fun _ => []) (fun _ => .error "") 0 "hello".data =
      (⟨"what?", []⟩, []) :=
  Execute_unrecognized_no_hw (fun _ => []) (fun _ => .error "") 0
    "hello".data (by decide) (by decide) (by decide) (by decide)

/-! ## Claim C10 -/

/-- C10.  Every command — binary or text, on any decompression outcome and
any poll count — returns a `Result` whose `responses` sequence is empty,
so the readback-line loop of `SpitermRunner::Impl::OnMessage` formats no
`"%04x[%d]"` lines for any command. -/
theorem Execute_responses_empty (queues₀ : ℕ → List ℕ)
    (dec : List ℕ → Except String (List ℕ)) (pollCount : ℕ)
    (raw : List Char) :
    ((Execute queues₀ dec pollCount raw).1).responses = [] ∧
    ∀ fmt, readbackLines fmt
      ((Execute queues₀ dec pollCount raw).1).responses = [] := by
  have h : ((Execute queues₀ dec pollCount raw).1).responses = [] := by
    simp only [Execute, parse_binary_commands, parse_text_commands]
    repeat' split
    all_goals rfl
  exact ⟨h, fun fmt => by simp [readbackLines, h]⟩

end SpiBeam
